import Mathlib

/-!
Verification of the decayed-quantity computations in
`src/calculate.py` and `src/bac.py`.

`calculate.py` is a script: it defines `remaining_dose`, a half-life
table `HALF_LIVES`, a list of medication events and target times, and a
double loop that accumulates per-substance remaining doses into a
pre-seeded nested dictionary `results`.

The embedding models Python floats as real numbers.  Timestamps,
doses and half-lives (which are all rational literals in the source)
are carried as rationals so that the control flow (comparisons,
truthiness tests, dictionary membership) is decidable; they are cast
to `ℝ` exactly where the source performs real arithmetic.  Python
dictionaries are association lists: `dict.get` is first-match lookup
returning `Option`, and `d[k] += v` is `updateAdd`, which fails
(`none`, modelling `KeyError`) when the key is absent.  A raised
`KeyError` aborts the whole script, so the accumulation loop is
threaded through `Option`.
-/

namespace DecayEngine

/-- A medication event from `calculate.py`'s `medications` list:
timestamp (hours on an absolute scale), dose, and substance key. -/
structure MedEvent where
  time : ℚ
  dose : ℚ
  type : String
deriving DecidableEq

/-- Inner dictionary of `results`: substance key to accumulated quantity. -/
abbrev Inner := List (String × ℝ)

/-- Outer dictionary of `results`: target time to inner dictionary. -/
abbrev Results := List (ℚ × Inner)

/-- The key list of an association list (in order, with multiplicity). -/
def keysOf {α β : Type} (d : List (α × β)) : List α := d.map Prod.fst

/-- Python `dict` lookup (`d.get(k)` / `d[k]` read): first entry whose
key matches, `none` when absent. -/
def alistGet {α β : Type} [DecidableEq α] (d : List (α × β)) (k : α) : Option β :=
  match d with
  | [] => none
  | (k2, v) :: rest => if k2 = k then some v else alistGet rest k

/-- Python `d[k] += v` on an inner dictionary: add `v` to the entry at
`k`; `none` models the `KeyError` raised when `k` is absent. -/
def updateAdd (d : Inner) (k : String) (v : ℝ) : Option Inner :=
  match d with
  | [] => none
  | (k2, v2) :: rest =>
    if k2 = k then some ((k2, v2 + v) :: rest)
    else (updateAdd rest k v).map (fun r => (k2, v2) :: r)

/-- Python `results[t][k] += v` on the nested dictionary: find the
inner dictionary at `t` and apply `updateAdd`; `none` models the
`KeyError` when either key is absent. -/
def updateOuter (res : Results) (t : ℚ) (k : String) (v : ℝ) : Option Results :=
  match res with
  | [] => none
  | (t2, inner) :: rest =>
    if t2 = t then (updateAdd inner k v).map (fun i => (t2, i) :: rest)
    else (updateOuter rest t k v).map (fun r => (t2, inner) :: r)

/-- `remaining_dose` from `calculate.py`:
`dose * (0.5 ** (hours_elapsed / half_life))`. -/
noncomputable def remaining_dose (dose hours_elapsed half_life : ℝ) : ℝ :=
  dose * (1 / 2 : ℝ) ^ (hours_elapsed / half_life)

/-- The `HALF_LIVES` dictionary from `calculate.py` (hours). -/
def HALF_LIVES : List (String × ℚ) :=
  [("oxycodone", 3.2), ("hydrocodone", 4.0), ("morphine", 2.75),
   ("fentanyl", 3.7), ("codeine", 3.0), ("methadone", 33.5),
   ("buprenorphine", 33.0), ("tramadol", 6.3), ("hydromorphone", 2.5),
   ("oxymorphone", 8.0), ("tapentadol", 4.0),
   ("amphetamine", 11.5), ("methylphenidate", 2.5),
   ("dextroamphetamine", 11.0), ("lisdexamfetamine", 11.5),
   ("modafinil", 13.5), ("cocaine", 1.0), ("caffeine", 4.0),
   ("alprazolam", 13.5), ("lorazepam", 15.0), ("diazepam", 35.0),
   ("clonazepam", 34.0), ("temazepam", 15.0), ("midazolam", 2.0),
   ("chlordiazepoxide", 17.5), ("flurazepam", 2.5), ("triazolam", 3.5)]

/-- One iteration of the inner loop body of `calculate.py` for a fixed
medication `m` and target time `t`:
`hours_elapsed = target - med_time`; if `hours_elapsed > 0`, look up the
half-life with `HALF_LIVES.get`; `if half_life:` (Python truthiness:
`None` and `0.0` are falsy) perform `results[t][m.type] += remaining_dose(...)`. -/
noncomputable def processPair (hl : List (String × ℚ)) (m : MedEvent) (t : ℚ)
    (res : Results) : Option Results :=
  if 0 < t - m.time then
    match alistGet hl m.type with
    | none => some res
    | some hlv =>
      if hlv = 0 then some res
      else updateOuter res t m.type
        (remaining_dose (m.dose : ℝ) ((t - m.time : ℚ) : ℝ) ((hlv : ℚ) : ℝ))
  else some res

/-- The inner `for target_time in target_times` loop for one medication. -/
noncomputable def processTargets (hl : List (String × ℚ)) (m : MedEvent) :
    List ℚ → Results → Option Results
  | [], res => some res
  | t :: ts, res =>
    match processPair hl m t res with
    | none => none
    | some res2 => processTargets hl m ts res2

/-- The outer `for med in medications` loop. -/
noncomputable def processMeds (hl : List (String × ℚ)) (targets : List ℚ) :
    List MedEvent → Results → Option Results
  | [], res => some res
  | m :: ms, res =>
    match processTargets hl m targets res with
    | none => none
    | some res2 => processMeds hl targets ms res2

/-- The zero-seeded inner dictionary, one entry per requested substance:
`{"oxycodone": 0, "hydrocodone": 0}` in the source generalises to
`seedZero ["oxycodone", "hydrocodone"]`. -/
def seedZero (subs : List String) : Inner := subs.map (fun s => (s, (0 : ℝ)))

/-- `results = {time: seed for time in target_times}`. -/
def initResults (targets : List ℚ) (seed : Inner) : Results :=
  targets.map (fun t => (t, seed))

/-- The whole accumulation of `calculate.py`: initialise `results` and
run the double loop over medications and target times. -/
noncomputable def accumulate (meds : List MedEvent) (targets : List ℚ)
    (hl : List (String × ℚ)) (seed : Inner) : Option Results :=
  processMeds hl targets meds (initResults targets seed)

/-- Read `results[t][s]` from a final state. -/
def getEntry (res : Results) (t : ℚ) (s : String) : Option ℝ :=
  (alistGet res t).bind (fun inner => alistGet inner s)

/-- The value of `results[t][s]`, defaulting to `0` when absent
(used only to state lemmas; presence is proved separately). -/
noncomputable def val (res : Results) (t : ℚ) (s : String) : ℝ :=
  (getEntry res t s).getD 0

/-- The contribution of one medication event to one target time, read
off the guards of the loop body: zero unless the event strictly
precedes the target and its substance has a truthy half-life, in which
case it is the independently decayed remainder of that event. -/
noncomputable def contrib (hl : List (String × ℚ)) (t : ℚ) (m : MedEvent) : ℝ :=
  if 0 < t - m.time then
    match alistGet hl m.type with
    | none => 0
    | some hlv =>
      if hlv = 0 then 0
      else remaining_dose (m.dose : ℝ) ((t - m.time : ℚ) : ℝ) ((hlv : ℚ) : ℝ)
  else 0

/-- The per-substance total the loop is expected to produce at a target
time: the sum over the events of that substance of their independently
decayed contributions. -/
noncomputable def expectedValue (hl : List (String × ℚ)) (meds : List MedEvent)
    (t : ℚ) (s : String) : ℝ :=
  ((meds.filter (fun m => m.type = s)).map (fun m => contrib hl t m)).sum

/-- Failure kinds for the instrumented accumulation: `keyError` is the
`KeyError` the plain model already has; `zeroDiv` marks a call of
`remaining_dose` whose `half_life` divisor is zero. -/
inductive AccErr where
  | keyError
  | zeroDiv
deriving DecidableEq

/-- `remaining_dose` with an explicit check at its division site: fails
with `zeroDiv` instead of dividing by a zero half-life. -/
noncomputable def remaining_dose_checked (dose hours_elapsed half_life : ℝ) :
    Except AccErr ℝ :=
  if half_life = 0 then Except.error AccErr.zeroDiv
  else Except.ok (remaining_dose dose hours_elapsed half_life)

/-- `processPair` instrumented with the division check: identical control
flow, but every call of `remaining_dose` goes through
`remaining_dose_checked`. -/
noncomputable def processPairE (hl : List (String × ℚ)) (m : MedEvent) (t : ℚ)
    (res : Results) : Except AccErr Results :=
  if 0 < t - m.time then
    match alistGet hl m.type with
    | none => Except.ok res
    | some hlv =>
      if hlv = 0 then Except.ok res
      else
        match remaining_dose_checked (m.dose : ℝ) ((t - m.time : ℚ) : ℝ) ((hlv : ℚ) : ℝ) with
        | Except.error e => Except.error e
        | Except.ok v =>
          match updateOuter res t m.type v with
          | none => Except.error AccErr.keyError
          | some res2 => Except.ok res2
  else Except.ok res

/-- The inner target loop, instrumented. -/
noncomputable def processTargetsE (hl : List (String × ℚ)) (m : MedEvent) :
    List ℚ → Results → Except AccErr Results
  | [], res => Except.ok res
  | t :: ts, res =>
    match processPairE hl m t res with
    | Except.error e => Except.error e
    | Except.ok res2 => processTargetsE hl m ts res2

/-- The outer medication loop, instrumented. -/
noncomputable def processMedsE (hl : List (String × ℚ)) (targets : List ℚ) :
    List MedEvent → Results → Except AccErr Results
  | [], res => Except.ok res
  | m :: ms, res =>
    match processTargetsE hl m targets res with
    | Except.error e => Except.error e
    | Except.ok res2 => processMedsE hl targets ms res2

/-- The whole accumulation, instrumented with the division check. -/
noncomputable def accumulateE (meds : List MedEvent) (targets : List ℚ)
    (hl : List (String × ℚ)) (seed : Inner) : Except AccErr Results :=
  processMedsE hl targets meds (initResults targets seed)

/-- The `medications` list of `calculate.py`, with timestamps in hours
since 2024-11-04 00:00 America/New_York (all four dates fall after the
2024 DST transition, so the offsets are uniform and differences exact). -/
def medications : List MedEvent :=
  [⟨526 / 60, 5, "oxycodone"⟩, ⟨2075 / 60, 5, "oxycodone"⟩, ⟨3939 / 60, 5, "oxycodone"⟩]

/-- The `target_times` list of `calculate.py`, on the same hour scale. -/
def target_times : List ℚ := [70, 90]

/-- The substance keys pre-seeded by `calculate.py`'s `results`
comprehension. -/
def seededSubstances : List String := ["oxycodone", "hydrocodone"]

/-- Shape invariant of the `results` dictionary: its outer keys are the
target times and every inner dictionary has the pre-seeded substance
keys. -/
def WF (res : Results) (targets : List ℚ) (subs : List String) : Prop :=
  keysOf res = targets ∧ ∀ p ∈ res, keysOf p.2 = subs

end DecayEngine

namespace Bac

/-! Embedding of `src/bac.py` (straight-line arithmetic). -/

noncomputable def body_weight_kg : ℝ := 265 * 0.453592

noncomputable def alcohol_percent : ℝ := 0.068

noncomputable def standard_drink_alcohol_g : ℝ := 14

noncomputable def beer_volume_ml : ℝ := 473

noncomputable def density_of_ethanol : ℝ := 0.789

noncomputable def total_volume_ml : ℝ := 2 * beer_volume_ml

noncomputable def total_alcohol_ml : ℝ := total_volume_ml * alcohol_percent

noncomputable def total_alcohol_g : ℝ := total_alcohol_ml * density_of_ethanol

noncomputable def body_water_constant : ℝ := 0.58

noncomputable def body_water_kg : ℝ := body_weight_kg * body_water_constant

noncomputable def bac : ℝ := total_alcohol_g / (body_water_kg * 1000) * 100

noncomputable def metabolism_rate_per_hour : ℝ := 0.015

noncomputable def time_elapsed_hours : ℝ := 7 - 4.5

noncomputable def bac_reduction : ℝ := metabolism_rate_per_hour * time_elapsed_hours

/-- `current_bac = max(0, bac - bac_reduction)` from `bac.py`. -/
noncomputable def current_bac : ℝ := max 0 (bac - bac_reduction)

/-- Modelled from the spec: `linear_reduce(current_level, rate_per_hour,
elapsed_hours) -> max(0, current_level - rate_per_hour * elapsed_hours)`.
The function itself does not appear under `src/`; `bac.py`'s
`current_bac` line instantiates it with the script's constants. -/
noncomputable def linear_reduce (current_level rate_per_hour elapsed_hours : ℝ) : ℝ :=
  max 0 (current_level - rate_per_hour * elapsed_hours)

end Bac

namespace DecayEngine

/-! ### Association-list lemmas -/

theorem alistGet_eq_none_iff {α β : Type} [DecidableEq α]
    (d : List (α × β)) (k : α) :
    alistGet d k = none ↔ k ∉ keysOf d := by
  induction d with
  | nil => simp [alistGet, keysOf]
  | cons p rest ih =>
    obtain ⟨k2, v2⟩ := p
    by_cases h : k2 = k
    · subst h
      simp [alistGet, keysOf]
    · simp [alistGet, h, keysOf, ih, Ne.symm h]

theorem alistGet_isSome_of_mem {α β : Type} [DecidableEq α]
    {d : List (α × β)} {k : α} (h : k ∈ keysOf d) :
    ∃ v, alistGet d k = some v := by
  rcases hv : alistGet d k with _ | v
  · exact absurd ((alistGet_eq_none_iff d k).mp hv) (by simpa using h)
  · exact ⟨v, rfl⟩

theorem updateAdd_eq_none_iff (d : Inner) (k : String) (v : ℝ) :
    updateAdd d k v = none ↔ k ∉ keysOf d := by
  induction d with
  | nil => simp [updateAdd, keysOf]
  | cons p rest ih =>
    obtain ⟨k2, v2⟩ := p
    by_cases h : k2 = k
    · subst h
      simp [updateAdd, keysOf]
    · simp [updateAdd, h, keysOf, Option.map_eq_none', ih, Ne.symm h]

theorem updateAdd_isSome_of_mem {d : Inner} {k : String} (v : ℝ)
    (h : k ∈ keysOf d) : ∃ d2, updateAdd d k v = some d2 := by
  rcases hd : updateAdd d k v with _ | d2
  · exact absurd ((updateAdd_eq_none_iff d k v).mp hd) (by simpa using h)
  · exact ⟨d2, rfl⟩

theorem updateAdd_keys {d d2 : Inner} {k : String} {v : ℝ}
    (h : updateAdd d k v = some d2) : keysOf d2 = keysOf d := by
  induction d generalizing d2 with
  | nil => simp [updateAdd] at h
  | cons p rest ih =>
    obtain ⟨k2, v2⟩ := p
    by_cases hk : k2 = k
    · subst hk
      simp [updateAdd] at h
      subst h
      simp [keysOf]
    · simp [updateAdd, hk, Option.map_eq_some'] at h
      obtain ⟨r, hr, hd2⟩ := h
      subst hd2
      simpa [keysOf] using ih hr

theorem updateAdd_get_same {d d2 : Inner} {k : String} {v : ℝ}
    (h : updateAdd d k v = some d2) :
    alistGet d2 k = (alistGet d k).map (fun x => x + v) := by
  induction d generalizing d2 with
  | nil => simp [updateAdd] at h
  | cons p rest ih =>
    obtain ⟨k2, v2⟩ := p
    by_cases hk : k2 = k
    · subst hk
      simp [updateAdd] at h
      subst h
      simp [alistGet]
    · simp [updateAdd, hk, Option.map_eq_some'] at h
      obtain ⟨r, hr, hd2⟩ := h
      subst hd2
      simp [alistGet, hk, ih hr]

theorem updateAdd_get_other {d d2 : Inner} {k k3 : String} {v : ℝ}
    (h : updateAdd d k v = some d2) (hne : k3 ≠ k) :
    alistGet d2 k3 = alistGet d k3 := by
  induction d generalizing d2 with
  | nil => simp [updateAdd] at h
  | cons p rest ih =>
    obtain ⟨k2, v2⟩ := p
    by_cases hk : k2 = k
    · subst hk
      simp [updateAdd] at h
      subst h
      simp [alistGet, Ne.symm hne]
    · simp [updateAdd, hk, Option.map_eq_some'] at h
      obtain ⟨r, hr, hd2⟩ := h
      subst hd2
      simp [alistGet, ih hr]

theorem updateOuter_keys {res res2 : Results} {t : ℚ} {k : String} {v : ℝ}
    (h : updateOuter res t k v = some res2) : keysOf res2 = keysOf res := by
  induction res generalizing res2 with
  | nil => simp [updateOuter] at h
  | cons p rest ih =>
    obtain ⟨t2, inner⟩ := p
    by_cases ht : t2 = t
    · subst ht
      simp [updateOuter, Option.map_eq_some'] at h
      obtain ⟨i, hi, hres2⟩ := h
      subst hres2
      simp [keysOf]
    · simp [updateOuter, ht, Option.map_eq_some'] at h
      obtain ⟨r, hr, hres2⟩ := h
      subst hres2
      simpa [keysOf] using ih hr

theorem updateOuter_inner_keys {res res2 : Results} {t : ℚ} {k : String} {v : ℝ}
    {subs : List String}
    (hwf : ∀ p ∈ res, keysOf p.2 = subs)
    (h : updateOuter res t k v = some res2) :
    ∀ p ∈ res2, keysOf p.2 = subs := by
  induction res generalizing res2 with
  | nil => simp [updateOuter] at h
  | cons p rest ih =>
    obtain ⟨t2, inner⟩ := p
    by_cases ht : t2 = t
    · subst ht
      simp [updateOuter, Option.map_eq_some'] at h
      obtain ⟨i, hi, hres2⟩ := h
      subst hres2
      intro q hq
      rcases List.mem_cons.mp hq with hq | hq
      · subst hq
        have := updateAdd_keys hi
        simp only [this]
        exact hwf (t2, inner) (by simp)
      · exact hwf q (List.mem_cons_of_mem _ hq)
    · simp [updateOuter, ht, Option.map_eq_some'] at h
      obtain ⟨r, hr, hres2⟩ := h
      subst hres2
      intro q hq
      rcases List.mem_cons.mp hq with hq | hq
      · subst hq
        exact hwf (t2, inner) (by simp)
      · exact ih (fun p hp => hwf p (List.mem_cons_of_mem _ hp)) hr q hq

theorem updateOuter_get_same {res res2 : Results} {t : ℚ} {k : String} {v : ℝ}
    (h : updateOuter res t k v = some res2) :
    ∃ inner inner2, alistGet res t = some inner ∧ updateAdd inner k v = some inner2 ∧
      alistGet res2 t = some inner2 := by
  induction res generalizing res2 with
  | nil => simp [updateOuter] at h
  | cons p rest ih =>
    obtain ⟨t2, inner⟩ := p
    by_cases ht : t2 = t
    · subst ht
      simp [updateOuter, Option.map_eq_some'] at h
      obtain ⟨i, hi, hres2⟩ := h
      subst hres2
      exact ⟨inner, i, by simp [alistGet], hi, by simp [alistGet]⟩
    · simp [updateOuter, ht, Option.map_eq_some'] at h
      obtain ⟨r, hr, hres2⟩ := h
      subst hres2
      obtain ⟨i, i2, hgi, hup, hgi2⟩ := ih hr
      exact ⟨i, i2, by simpa [alistGet, ht] using hgi, hup, by simpa [alistGet, ht] using hgi2⟩

theorem updateOuter_get_other {res res2 : Results} {t t3 : ℚ} {k : String} {v : ℝ}
    (h : updateOuter res t k v = some res2) (hne : t3 ≠ t) :
    alistGet res2 t3 = alistGet res t3 := by
  induction res generalizing res2 with
  | nil => simp [updateOuter] at h
  | cons p rest ih =>
    obtain ⟨t2, inner⟩ := p
    by_cases ht : t2 = t
    · subst ht
      simp [updateOuter, Option.map_eq_some'] at h
      obtain ⟨i, hi, hres2⟩ := h
      subst hres2
      simp [alistGet, Ne.symm hne]
    · simp [updateOuter, ht, Option.map_eq_some'] at h
      obtain ⟨r, hr, hres2⟩ := h
      subst hres2
      simp [alistGet, ih hr]

theorem updateOuter_isSome {res : Results} {t : ℚ} {k : String} (v : ℝ)
    (ht : t ∈ keysOf res) (hk : ∀ p ∈ res, k ∈ keysOf p.2) :
    ∃ res2, updateOuter res t k v = some res2 := by
  induction res with
  | nil => simp [keysOf] at ht
  | cons p rest ih =>
    obtain ⟨t2, inner⟩ := p
    by_cases h2 : t2 = t
    · subst h2
      obtain ⟨i, hi⟩ := updateAdd_isSome_of_mem v (hk (t2, inner) (by simp))
      exact ⟨(t2, i) :: rest, by simp [updateOuter, hi]⟩
    · have ht2 : t ∈ keysOf rest := by
        simp [keysOf] at ht ⊢
        tauto
      obtain ⟨r, hr⟩ := ih ht2 (fun p hp => hk p (List.mem_cons_of_mem _ hp))
      exact ⟨(t2, inner) :: r, by simp [updateOuter, h2, hr]⟩

/-! ### Effect of one update on the stored values -/

theorem val_updateOuter_same {res res2 : Results} {t : ℚ} {k : String} {v : ℝ}
    (h : updateOuter res t k v = some res2) :
    val res2 t k = val res t k + v := by
  obtain ⟨inner, inner2, hg, hu, hg2⟩ := updateOuter_get_same h
  have hmem : k ∈ keysOf inner := by
    by_contra hk
    rw [(updateAdd_eq_none_iff inner k v).mpr hk] at hu
    exact Option.noConfusion hu
  obtain ⟨x, hx⟩ := alistGet_isSome_of_mem hmem
  have h2 := updateAdd_get_same hu
  rw [hx] at h2
  simp [val, getEntry, hg, hg2, h2, hx]

theorem val_updateOuter_other {res res2 : Results} {t t3 : ℚ} {k s3 : String} {v : ℝ}
    (h : updateOuter res t k v = some res2) (hne : ¬(t3 = t ∧ s3 = k)) :
    val res2 t3 s3 = val res t3 s3 := by
  by_cases ht : t3 = t
  · subst ht
    have hs : s3 ≠ k := fun hs => hne ⟨rfl, hs⟩
    obtain ⟨inner, inner2, hg, hu, hg2⟩ := updateOuter_get_same h
    simp [val, getEntry, hg, hg2, updateAdd_get_other hu hs]
  · simp [val, getEntry, updateOuter_get_other h ht]

/-! ### One iteration of the loop body -/

theorem processPair_spec (hl : List (String × ℚ)) {m : MedEvent} {t : ℚ}
    {res : Results} {targets : List ℚ} {subs : List String}
    (hwf : WF res targets subs) (hm : m.type ∈ subs) (ht : t ∈ targets) :
    ∃ res2, processPair hl m t res = some res2 ∧ WF res2 targets subs ∧
      ∀ t3 s3, val res2 t3 s3 = val res t3 s3 +
        (if t3 = t ∧ s3 = m.type then contrib hl t m else 0) := by
  by_cases h1 : 0 < t - m.time
  · rcases hlook : alistGet hl m.type with _ | hlv
    · refine ⟨res, ?_, hwf, ?_⟩
      · simp [processPair, h1, hlook]
      · intro t3 s3
        simp [contrib, h1, hlook]
    · by_cases h0 : hlv = 0
      · subst h0
        refine ⟨res, ?_, hwf, ?_⟩
        · simp [processPair, h1, hlook]
        · intro t3 s3
          simp [contrib, h1, hlook]
      · have htk : t ∈ keysOf res := hwf.1 ▸ ht
        have hik : ∀ p ∈ res, m.type ∈ keysOf p.2 := by
          intro p hp
          rw [hwf.2 p hp]
          exact hm
        obtain ⟨res2, hres2⟩ := updateOuter_isSome
          (remaining_dose (m.dose : ℝ) ((t - m.time : ℚ) : ℝ) ((hlv : ℚ) : ℝ)) htk hik
        refine ⟨res2, ?_, ⟨?_, ?_⟩, ?_⟩
        · have hres3 := hres2
          push_cast at hres3
          simp [processPair, h1, hlook, h0, hres3]
        · rw [updateOuter_keys hres2]
          exact hwf.1
        · exact updateOuter_inner_keys hwf.2 hres2
        · intro t3 s3
          by_cases hts : t3 = t ∧ s3 = m.type
          · obtain ⟨ht3, hs3⟩ := hts
            subst ht3
            subst hs3
            rw [val_updateOuter_same hres2]
            simp [contrib, h1, hlook, h0]
          · rw [val_updateOuter_other hres2 hts]
            simp [hts]
  · refine ⟨res, ?_, hwf, ?_⟩
    · simp [processPair, h1]
    · intro t3 s3
      simp [contrib, h1]

/-! ### The two loops -/

theorem processTargets_spec (hl : List (String × ℚ)) {m : MedEvent}
    {targets : List ℚ} {subs : List String} {ts : List ℚ} {res : Results}
    (hwf : WF res targets subs) (hm : m.type ∈ subs) (hnd : ts.Nodup)
    (hsub : ∀ t ∈ ts, t ∈ targets) :
    ∃ res2, processTargets hl m ts res = some res2 ∧ WF res2 targets subs ∧
      ∀ t3 s3, val res2 t3 s3 = val res t3 s3 +
        (if t3 ∈ ts ∧ s3 = m.type then contrib hl t3 m else 0) := by
  induction ts generalizing res with
  | nil => exact ⟨res, rfl, hwf, fun t3 s3 => by simp [processTargets]⟩
  | cons t ts ih =>
    obtain ⟨hnotmem, hnd2⟩ := List.nodup_cons.mp hnd
    obtain ⟨res1, hp, hwf1, hv1⟩ := processPair_spec hl hwf hm (hsub t (by simp))
    obtain ⟨res2, hp2, hwf2, hv2⟩ :=
      ih hwf1 hnd2 (fun t2 ht2 => hsub t2 (List.mem_cons_of_mem _ ht2))
    refine ⟨res2, ?_, hwf2, ?_⟩
    · simp [processTargets, hp, hp2]
    · intro t3 s3
      rw [hv2, hv1]
      by_cases hs : s3 = m.type
      · by_cases ht3 : t3 = t
        · subst ht3
          simp [hs, hnotmem]
        · by_cases hts : t3 ∈ ts
          · simp [hs, ht3, hts]
          · simp [hs, ht3, hts]
      · simp [hs]

theorem expectedValue_cons (hl : List (String × ℚ)) (m : MedEvent)
    (ms : List MedEvent) (t : ℚ) (s : String) :
    expectedValue hl (m :: ms) t s =
      (if m.type = s then contrib hl t m else 0) + expectedValue hl ms t s := by
  by_cases h : m.type = s <;> simp [expectedValue, List.filter_cons, h]

theorem processMeds_spec {hl : List (String × ℚ)} {targets : List ℚ}
    {subs : List String} {meds : List MedEvent} {res : Results}
    (hwf : WF res targets subs) (hnd : targets.Nodup)
    (hmem : ∀ m ∈ meds, m.type ∈ subs) :
    ∃ res2, processMeds hl targets meds res = some res2 ∧ WF res2 targets subs ∧
      ∀ t3 s3, val res2 t3 s3 = val res t3 s3 +
        (if t3 ∈ targets then expectedValue hl meds t3 s3 else 0) := by
  induction meds generalizing res with
  | nil => exact ⟨res, rfl, hwf, fun t3 s3 => by simp [processMeds, expectedValue]⟩
  | cons m ms ih =>
    obtain ⟨res1, hp, hwf1, hv1⟩ :=
      processTargets_spec hl hwf (hmem m (by simp)) hnd (fun t ht => ht)
    obtain ⟨res2, hp2, hwf2, hv2⟩ :=
      ih hwf1 (fun m2 hm2 => hmem m2 (List.mem_cons_of_mem _ hm2))
    refine ⟨res2, ?_, hwf2, ?_⟩
    · simp [processMeds, hp, hp2]
    · intro t3 s3
      rw [hv2, hv1, expectedValue_cons]
      by_cases ht : t3 ∈ targets
      · by_cases hs : s3 = m.type
        · simp [ht, hs]
          ring
        · have hs2 : ¬m.type = s3 := fun h => hs h.symm
          simp [ht, hs, hs2]
      · simp [ht]

/-! ### The initial state -/

theorem keysOf_initResults (targets : List ℚ) (seed : Inner) :
    keysOf (initResults targets seed) = targets := by
  induction targets with
  | nil => rfl
  | cons t ts ih => simpa [initResults, keysOf] using ih

theorem keysOf_seedZero (subs : List String) : keysOf (seedZero subs) = subs := by
  induction subs with
  | nil => rfl
  | cons s ss ih => simpa [seedZero, keysOf] using ih

theorem initResults_WF (targets : List ℚ) (subs : List String) :
    WF (initResults targets (seedZero subs)) targets subs := by
  constructor
  · exact keysOf_initResults targets (seedZero subs)
  · intro p hp
    simp [initResults] at hp
    obtain ⟨t, ht, rfl⟩ := hp
    exact keysOf_seedZero subs

theorem alistGet_initResults (targets : List ℚ) (seed : Inner) (t : ℚ) :
    alistGet (initResults targets seed) t = none ∨
      alistGet (initResults targets seed) t = some seed := by
  induction targets with
  | nil => exact Or.inl (by simp [initResults, alistGet])
  | cons t2 ts ih =>
    by_cases h : t2 = t
    · exact Or.inr (by simp [initResults, alistGet, h])
    · simpa [initResults, alistGet, h] using ih

theorem alistGet_seedZero (subs : List String) (s : String) :
    alistGet (seedZero subs) s = none ∨ alistGet (seedZero subs) s = some 0 := by
  induction subs with
  | nil => exact Or.inl (by simp [seedZero, alistGet])
  | cons s2 ss ih =>
    by_cases h : s2 = s
    · exact Or.inr (by simp [seedZero, alistGet, h])
    · simpa [seedZero, alistGet, h] using ih

theorem val_init (targets : List ℚ) (subs : List String) (t : ℚ) (s : String) :
    val (initResults targets (seedZero subs)) t s = 0 := by
  rcases alistGet_initResults targets (seedZero subs) t with h | h
  · simp [val, getEntry, h]
  · rcases alistGet_seedZero subs s with h2 | h2 <;> simp [val, getEntry, h, h2]

/-! ### Reading entries out of a well-formed state -/

theorem alistGet_mem {α β : Type} [DecidableEq α] {d : List (α × β)} {k : α} {v : β}
    (h : alistGet d k = some v) : (k, v) ∈ d := by
  induction d with
  | nil => simp [alistGet] at h
  | cons p rest ih =>
    obtain ⟨k2, v2⟩ := p
    by_cases hk : k2 = k
    · subst hk
      simp [alistGet] at h
      subst h
      exact List.mem_cons_self _ _
    · simp [alistGet, hk] at h
      exact List.mem_cons_of_mem _ (ih h)

theorem getEntry_eq_val {res : Results} {targets : List ℚ} {subs : List String}
    (hwf : WF res targets subs) {t : ℚ} {s : String}
    (ht : t ∈ targets) (hs : s ∈ subs) :
    getEntry res t s = some (val res t s) := by
  have ht2 : t ∈ keysOf res := hwf.1 ▸ ht
  obtain ⟨inner, hinner⟩ := alistGet_isSome_of_mem ht2
  have hkeys : keysOf inner = subs := hwf.2 (t, inner) (alistGet_mem hinner)
  obtain ⟨x, hx⟩ := alistGet_isSome_of_mem (d := inner) (k := s) (hkeys ▸ hs)
  simp [getEntry, val, hinner, hx]

/-! ### The accumulation as a whole -/

theorem accumulate_spec (hl : List (String × ℚ)) (meds : List MedEvent)
    (targets : List ℚ) (subs : List String)
    (hnd : targets.Nodup) (hmem : ∀ m ∈ meds, m.type ∈ subs) :
    ∃ r, accumulate meds targets hl (seedZero subs) = some r ∧
      WF r targets subs ∧
      ∀ t ∈ targets, ∀ s ∈ subs,
        getEntry r t s = some (expectedValue hl meds t s) := by
  obtain ⟨r, hp, hwf, hv⟩ := processMeds_spec (initResults_WF targets subs) hnd hmem
  refine ⟨r, hp, hwf, ?_⟩
  intro t ht s hs
  rw [getEntry_eq_val hwf ht hs, hv t s, val_init, zero_add, if_pos ht]

/-! ### Skipped events -/

theorem processPair_id_of_unknown {hl : List (String × ℚ)} {m : MedEvent}
    {t : ℚ} {res : Results} (h : alistGet hl m.type = none) :
    processPair hl m t res = some res := by
  by_cases h1 : 0 < t - m.time <;> simp [processPair, h1, h]

theorem processPair_id_of_zero {hl : List (String × ℚ)} {m : MedEvent}
    {t : ℚ} {res : Results} (h : alistGet hl m.type = some 0) :
    processPair hl m t res = some res := by
  by_cases h1 : 0 < t - m.time <;> simp [processPair, h1, h]

theorem processTargets_id_of_unknown {hl : List (String × ℚ)} {m : MedEvent}
    (h : alistGet hl m.type = none) :
    ∀ (ts : List ℚ) (res : Results), processTargets hl m ts res = some res := by
  intro ts
  induction ts with
  | nil => intro res; rfl
  | cons t ts ih =>
    intro res
    simp [processTargets, processPair_id_of_unknown h, ih]

theorem processMeds_filter_known (hl : List (String × ℚ)) (targets : List ℚ) :
    ∀ (meds : List MedEvent) (res : Results),
      processMeds hl targets meds res =
        processMeds hl targets
          (meds.filter (fun m => (alistGet hl m.type).isSome)) res := by
  intro meds
  induction meds with
  | nil => intro res; rfl
  | cons m ms ih =>
    intro res
    by_cases h : (alistGet hl m.type).isSome
    · simp only [List.filter_cons, h, if_pos]
      simp only [processMeds]
      cases hpt : processTargets hl m targets res with
      | none => rfl
      | some res2 => exact ih res2
    · have hnone : alistGet hl m.type = none := Option.not_isSome_iff_eq_none.mp h
      simp only [List.filter_cons, h]
      simp only [processMeds, processTargets_id_of_unknown hnone targets res]
      exact ih res

/-! ### Contribution facts -/

theorem contrib_eq_zero_of_le {hl : List (String × ℚ)} {m : MedEvent} {t : ℚ}
    (h : t ≤ m.time) : contrib hl t m = 0 := by
  have : ¬(0 < t - m.time) := not_lt.mpr (sub_nonpos.mpr h)
  simp [contrib, this]

theorem contrib_eq_remaining {hl : List (String × ℚ)} {m : MedEvent} {t : ℚ}
    {hlv : ℚ} (h1 : 0 < t - m.time) (h2 : alistGet hl m.type = some hlv)
    (h3 : hlv ≠ 0) :
    contrib hl t m =
      remaining_dose (m.dose : ℝ) ((t - m.time : ℚ) : ℝ) ((hlv : ℚ) : ℝ) := by
  simp [contrib, h1, h2, h3]

theorem contrib_nonneg {hl : List (String × ℚ)} {m : MedEvent} {t : ℚ}
    (h : 0 ≤ m.dose) : 0 ≤ contrib hl t m := by
  rw [contrib]
  split
  · rcases alistGet hl m.type with _ | hlv
    · exact le_refl 0
    · simp only []
      split
      · exact le_refl 0
      · exact mul_nonneg (by exact_mod_cast h) (Real.rpow_nonneg (by norm_num) _)
  · exact le_refl 0

theorem expectedValue_eq_strict (hl : List (String × ℚ)) (t : ℚ) (s : String) :
    ∀ meds : List MedEvent, expectedValue hl meds t s =
      ((meds.filter (fun m => m.type = s ∧ m.time < t)).map
        (fun m => contrib hl t m)).sum := by
  intro meds
  induction meds with
  | nil => rfl
  | cons m ms ih =>
    rw [expectedValue_cons, ih]
    by_cases h1 : m.type = s
    · by_cases h2 : m.time < t
      · simp [List.filter_cons, h1, h2]
      · have hz : contrib hl t m = 0 := contrib_eq_zero_of_le (not_lt.mp h2)
        simp [List.filter_cons, h1, h2, hz]
    · simp [List.filter_cons, h1]

/-! ### The instrumented accumulation agrees with the plain one -/

theorem processPairE_eq (hl : List (String × ℚ)) (m : MedEvent) (t : ℚ)
    (res : Results) :
    processPairE hl m t res =
      match processPair hl m t res with
      | none => Except.error AccErr.keyError
      | some r => Except.ok r := by
  by_cases h1 : 0 < t - m.time
  · rcases hlook : alistGet hl m.type with _ | hlv
    · simp [processPairE, processPair, h1, hlook]
    · by_cases h0 : hlv = 0
      · simp [processPairE, processPair, h1, hlook, h0]
      · have hcast : ((hlv : ℚ) : ℝ) ≠ 0 := by
          exact_mod_cast h0
        simp only [processPairE, processPair, h1, hlook, h0, if_true, if_neg h0,
          remaining_dose_checked, if_neg hcast, if_pos h1]
        cases hupd : updateOuter res t m.type
            (remaining_dose (m.dose : ℝ) ((t - m.time : ℚ) : ℝ) ((hlv : ℚ) : ℝ)) <;>
          simp [hupd]
  · simp [processPairE, processPair, h1]

theorem processTargetsE_eq (hl : List (String × ℚ)) (m : MedEvent) :
    ∀ (ts : List ℚ) (res : Results),
      processTargetsE hl m ts res =
        match processTargets hl m ts res with
        | none => Except.error AccErr.keyError
        | some r => Except.ok r := by
  intro ts
  induction ts with
  | nil => intro res; rfl
  | cons t ts ih =>
    intro res
    simp only [processTargetsE, processTargets, processPairE_eq]
    cases processPair hl m t res with
    | none => rfl
    | some res2 => simp [ih res2]

theorem processMedsE_eq (hl : List (String × ℚ)) (targets : List ℚ) :
    ∀ (meds : List MedEvent) (res : Results),
      processMedsE hl targets meds res =
        match processMeds hl targets meds res with
        | none => Except.error AccErr.keyError
        | some r => Except.ok r := by
  intro meds
  induction meds with
  | nil => intro res; rfl
  | cons m ms ih =>
    intro res
    simp only [processMedsE, processMeds, processTargetsE_eq]
    cases processTargets hl m targets res with
    | none => rfl
    | some res2 => simp [ih res2]

theorem accumulateE_eq (meds : List MedEvent) (targets : List ℚ)
    (hl : List (String × ℚ)) (seed : Inner) :
    accumulateE meds targets hl seed =
      match accumulate meds targets hl seed with
      | none => Except.error AccErr.keyError
      | some r => Except.ok r :=
  processMedsE_eq hl targets meds (initResults targets seed)

/-! ### Key preservation -/

theorem processPair_preserves {hl : List (String × ℚ)} {m : MedEvent} {t : ℚ}
    {res res2 : Results} {K : List String}
    (h : processPair hl m t res = some res2)
    (hwf : ∀ p ∈ res, keysOf p.2 = K) :
    keysOf res2 = keysOf res ∧ ∀ p ∈ res2, keysOf p.2 = K := by
  unfold processPair at h
  split at h
  · split at h
    · injection h with h
      subst h
      exact ⟨rfl, hwf⟩
    · split at h
      · injection h with h
        subst h
        exact ⟨rfl, hwf⟩
      · exact ⟨updateOuter_keys h, updateOuter_inner_keys hwf h⟩
  · injection h with h
    subst h
    exact ⟨rfl, hwf⟩

theorem processTargets_preserves {hl : List (String × ℚ)} {m : MedEvent} :
    ∀ {ts : List ℚ} {res res2 : Results} {K : List String},
      processTargets hl m ts res = some res2 → (∀ p ∈ res, keysOf p.2 = K) →
      keysOf res2 = keysOf res ∧ ∀ p ∈ res2, keysOf p.2 = K := by
  intro ts
  induction ts with
  | nil =>
    intro res res2 K h hwf
    injection h with h
    subst h
    exact ⟨rfl, hwf⟩
  | cons t ts ih =>
    intro res res2 K h hwf
    simp only [processTargets] at h
    cases hp : processPair hl m t res with
    | none => rw [hp] at h; exact Option.noConfusion h
    | some res1 =>
      rw [hp] at h
      obtain ⟨hk1, hwf1⟩ := processPair_preserves hp hwf
      obtain ⟨hk2, hwf2⟩ := ih h hwf1
      exact ⟨hk2.trans hk1, hwf2⟩

theorem processMeds_preserves {hl : List (String × ℚ)} {targets : List ℚ} :
    ∀ {meds : List MedEvent} {res res2 : Results} {K : List String},
      processMeds hl targets meds res = some res2 → (∀ p ∈ res, keysOf p.2 = K) →
      keysOf res2 = keysOf res ∧ ∀ p ∈ res2, keysOf p.2 = K := by
  intro meds
  induction meds with
  | nil =>
    intro res res2 K h hwf
    injection h with h
    subst h
    exact ⟨rfl, hwf⟩
  | cons m ms ih =>
    intro res res2 K h hwf
    simp only [processMeds] at h
    cases hp : processTargets hl m targets res with
    | none => rw [hp] at h; exact Option.noConfusion h
    | some res1 =>
      rw [hp] at h
      obtain ⟨hk1, hwf1⟩ := processTargets_preserves hp hwf
      obtain ⟨hk2, hwf2⟩ := ih h hwf1
      exact ⟨hk2.trans hk1, hwf2⟩

theorem accumulate_single_seeded {hl : List (String × ℚ)} {subs : List String}
    {m : MedEvent} {t : ℚ} {hlv : ℚ}
    (h1 : 0 < t - m.time) (h2 : alistGet hl m.type = some hlv) (h3 : hlv ≠ 0)
    (hmem : m.type ∈ subs) :
    ∃ r, accumulate [m] [t] hl (seedZero subs) = some r ∧
      getEntry r t m.type =
        some (remaining_dose (m.dose : ℝ) ((t - m.time : ℚ) : ℝ) ((hlv : ℚ) : ℝ)) := by
  obtain ⟨r, hacc, hwf, hval⟩ := accumulate_spec hl [m] [t] subs
    (by simp) (by simpa using hmem)
  refine ⟨r, hacc, ?_⟩
  rw [hval t (by simp) m.type hmem]
  congr 1
  simp [expectedValue, List.filter_cons, contrib_eq_remaining h1 h2 h3]

theorem accumulate_single_unseeded {hl : List (String × ℚ)} {subs : List String}
    {m : MedEvent} {t : ℚ} {hlv : ℚ}
    (h1 : 0 < t - m.time) (h2 : alistGet hl m.type = some hlv) (h3 : hlv ≠ 0)
    (hmem : m.type ∉ subs) :
    accumulate [m] [t] hl (seedZero subs) = none := by
  have hupd : updateAdd (seedZero subs) m.type
      (remaining_dose (m.dose : ℝ) ((t - m.time : ℚ) : ℝ) ((hlv : ℚ) : ℝ)) = none :=
    (updateAdd_eq_none_iff _ _ _).mpr (by rw [keysOf_seedZero]; exact hmem)
  push_cast at hupd
  simp [accumulate, processMeds, processTargets, processPair, h1, h2, h3, initResults,
        updateOuter, hupd]

/-! ## Claim theorems -/

/-- C1, counterexample: an event whose substance ("unobtainium") is
absent from `HALF_LIVES` and strictly precedes the query time does NOT
make the accumulation fail: the run succeeds and returns the untouched
zero-seeded result, so no `UnknownSubstance` error is reported
(the source has no error reporting at all for this case). -/
theorem unknown_substance_no_error_cex :
    accumulate [⟨0, 5, "unobtainium"⟩] [1] HALF_LIVES (seedZero seededSubstances) =
      some (initResults [1] (seedZero seededSubstances)) := by
  have h : alistGet HALF_LIVES (MedEvent.mk 0 5 "unobtainium").type = none := rfl
  simp [accumulate, processMeds, processTargets_id_of_unknown h]

/-- C1 (amended): an event whose substance key is absent from the
half-life table is silently skipped and contributes zero: the
accumulation computes exactly what it computes on the event list with
all unknown-substance events filtered out, and reports no error. -/
theorem unknown_substance_silently_skipped (hl : List (String × ℚ))
    (meds : List MedEvent) (targets : List ℚ) (seed : Inner) :
    accumulate meds targets hl seed =
      accumulate (meds.filter (fun m => (alistGet hl m.type).isSome)) targets hl seed :=
  processMeds_filter_known hl targets meds (initResults targets seed)

/-- C2, counterexample: a dose of "morphine" (half-life 2.75 in the
table) strictly preceding the query time makes the whole accumulation
fail with a `KeyError` (`none`), because "morphine" is not pre-seeded
in the result map: the missing accumulator entry is NOT treated as
zero. -/
theorem unseeded_substance_keyerror_cex :
    accumulate [⟨0, 5, "morphine"⟩] [1] HALF_LIVES (seedZero seededSubstances) = none := by
  have h2 : alistGet HALF_LIVES (MedEvent.mk 0 5 "morphine").type = some (2.75 : ℚ) := rfl
  exact accumulate_single_unseeded (by norm_num) h2 (by norm_num) (by decide)

/-- C2 (amended): for a dose event whose substance has a truthy
half-life and which strictly precedes the query time, `accumulate` adds
the event's decayed remainder to the accumulator entry for that
substance provided the substance is pre-seeded in the result map; if it
is not pre-seeded, the accumulation fails with a missing-key error
instead of defaulting the entry to zero. -/
theorem accumulate_adds_only_to_seeded (hl : List (String × ℚ)) (subs : List String)
    (m : MedEvent) (t : ℚ) (hlv : ℚ)
    (h1 : 0 < t - m.time) (h2 : alistGet hl m.type = some hlv) (h3 : hlv ≠ 0) :
    (m.type ∈ subs →
      ∃ r, accumulate [m] [t] hl (seedZero subs) = some r ∧
        getEntry r t m.type =
          some (remaining_dose (m.dose : ℝ) ((t - m.time : ℚ) : ℝ) ((hlv : ℚ) : ℝ))) ∧
    (m.type ∉ subs → accumulate [m] [t] hl (seedZero subs) = none) :=
  ⟨fun hmem => accumulate_single_seeded h1 h2 h3 hmem,
   fun hmem => accumulate_single_unseeded h1 h2 h3 hmem⟩

/-- Witness for C2's amended theorem at a concrete input: a 5-unit
oxycodone dose one hour before the query. -/
theorem accumulate_adds_only_to_seeded_witness :
    (MedEvent.mk 0 5 "oxycodone").type ∈ seededSubstances ∧
    ∃ r, accumulate [⟨0, 5, "oxycodone"⟩] [1] HALF_LIVES (seedZero seededSubstances) = some r ∧
      getEntry r 1 "oxycodone" = some (remaining_dose 5 1 3.2) := by
  have h := accumulate_adds_only_to_seeded HALF_LIVES seededSubstances
    ⟨0, 5, "oxycodone"⟩ 1 3.2 (by norm_num) rfl (by norm_num)
  have hmem : (MedEvent.mk 0 5 "oxycodone").type ∈ seededSubstances := by decide
  obtain ⟨r, hacc, hget⟩ := h.1 hmem
  refine ⟨hmem, r, hacc, ?_⟩
  rw [hget]
  norm_num

/-- C3: an event at or after a query time contributes exactly zero
(`contrib` vanishes when `t ≤ m.time`), and the accumulated entry at
each query time equals the sum over exactly those events that strictly
precede it. -/
theorem events_not_preceding_contribute_zero (hl : List (String × ℚ))
    (meds : List MedEvent) (targets : List ℚ) (subs : List String)
    (hnd : targets.Nodup) (hmem : ∀ m ∈ meds, m.type ∈ subs) :
    (∀ (m : MedEvent) (t : ℚ), t ≤ m.time → contrib hl t m = 0) ∧
    ∃ r, accumulate meds targets hl (seedZero subs) = some r ∧
      ∀ t ∈ targets, ∀ s ∈ subs,
        getEntry r t s =
          some (((meds.filter (fun m => m.type = s ∧ m.time < t)).map
            (fun m => contrib hl t m)).sum) := by
  refine ⟨fun m t h => contrib_eq_zero_of_le h, ?_⟩
  obtain ⟨r, hacc, hwf, hval⟩ := accumulate_spec hl meds targets subs hnd hmem
  refine ⟨r, hacc, fun t ht s hs => ?_⟩
  rw [hval t ht s hs, expectedValue_eq_strict]

/-- Witness for C3 at a concrete input: the query time coincides with
the event's timestamp, so the entry stays at zero. -/
theorem events_not_preceding_contribute_zero_witness :
    ∃ r, accumulate [⟨1, 5, "oxycodone"⟩] [1] HALF_LIVES (seedZero seededSubstances) =
        some r ∧ getEntry r 1 "oxycodone" = some 0 := by
  obtain ⟨-, r, hacc, hval⟩ := events_not_preceding_contribute_zero HALF_LIVES
    [⟨1, 5, "oxycodone"⟩] [1] seededSubstances (by decide) (by decide)
  refine ⟨r, hacc, ?_⟩
  have h := hval 1 (by simp) "oxycodone" (by decide)
  simpa using h

/-- C4: decay is applied per event, then summed: the accumulated value
for a substance is the sum of each event's independently decayed
remainder `remaining_dose(dose, query - time, half_life)`. -/
theorem per_event_decay_summation (hl : List (String × ℚ))
    (meds : List MedEvent) (targets : List ℚ) (subs : List String)
    (hnd : targets.Nodup) (hmem : ∀ m ∈ meds, m.type ∈ subs) :
    (∀ (m : MedEvent) (t : ℚ) (hlv : ℚ), 0 < t - m.time →
      alistGet hl m.type = some hlv → hlv ≠ 0 →
      contrib hl t m =
        remaining_dose (m.dose : ℝ) ((t - m.time : ℚ) : ℝ) ((hlv : ℚ) : ℝ)) ∧
    ∃ r, accumulate meds targets hl (seedZero subs) = some r ∧
      ∀ t ∈ targets, ∀ s ∈ subs, getEntry r t s = some (expectedValue hl meds t s) := by
  obtain ⟨r, hacc, hwf, hval⟩ := accumulate_spec hl meds targets subs hnd hmem
  exact ⟨fun m t hlv h1 h2 h3 => contrib_eq_remaining h1 h2 h3, r, hacc, hval⟩

/-- Witness for C4 on the spec's scenario: two 5-unit doses of the same
substance 24 hours apart, queried one hour after the second dose with
half-life 3.2: the result is the sum of the two independently decayed
remainders. -/
theorem per_event_decay_summation_witness :
    ∃ r, accumulate [⟨0, 5, "oxycodone"⟩, ⟨24, 5, "oxycodone"⟩] [25] HALF_LIVES
        (seedZero seededSubstances) = some r ∧
      getEntry r 25 "oxycodone" =
        some (remaining_dose 5 25 3.2 + remaining_dose 5 1 3.2) := by
  obtain ⟨hc, r, hacc, hval⟩ := per_event_decay_summation HALF_LIVES
    [⟨0, 5, "oxycodone"⟩, ⟨24, 5, "oxycodone"⟩] [25] seededSubstances
    (by decide) (by decide)
  refine ⟨r, hacc, ?_⟩
  have h := hval 25 (by simp) "oxycodone" (by decide)
  rw [h]
  have e1 := hc ⟨0, 5, "oxycodone"⟩ 25 3.2 (by norm_num) rfl (by norm_num)
  have e2 := hc ⟨24, 5, "oxycodone"⟩ 25 3.2 (by norm_num) rfl (by norm_num)
  simp only [expectedValue, List.filter_cons]
  norm_num [e1, e2]

/-- C5: with an empty event list, `accumulate` returns the zero-seeded
result map: every requested substance key is present at every query
time with value exactly zero. -/
theorem accumulate_empty_all_zero (targets : List ℚ) (hl : List (String × ℚ))
    (subs : List String) :
    accumulate [] targets hl (seedZero subs) =
      some (initResults targets (seedZero subs)) ∧
    ∀ t ∈ targets, ∀ s ∈ subs,
      getEntry (initResults targets (seedZero subs)) t s = some 0 := by
  refine ⟨rfl, fun t ht s hs => ?_⟩
  rw [getEntry_eq_val (initResults_WF targets subs) ht hs, val_init]

/-- Witness for C5 on the script's own target times and seeded keys. -/
theorem accumulate_empty_all_zero_witness :
    accumulate [] target_times HALF_LIVES (seedZero seededSubstances) =
      some (initResults target_times (seedZero seededSubstances)) ∧
    getEntry (initResults target_times (seedZero seededSubstances)) 70 "oxycodone" =
      some 0 := by
  obtain ⟨h1, h2⟩ := accumulate_empty_all_zero target_times HALF_LIVES seededSubstances
  exact ⟨h1, h2 70 (by decide) "oxycodone" (by decide)⟩

/-- C6: `remaining_dose` is non-negative for non-negative dose,
positive half-life and non-negative elapsed time; consequently, for
non-negative doses, every accumulated per-substance value in the result
map is non-negative. -/
theorem remaining_dose_and_results_nonneg :
    (∀ q t h : ℝ, 0 ≤ q → 0 < h → 0 ≤ t → 0 ≤ remaining_dose q t h) ∧
    ∀ (hl : List (String × ℚ)) (meds : List MedEvent) (targets : List ℚ)
      (subs : List String),
      targets.Nodup → (∀ m ∈ meds, m.type ∈ subs) → (∀ m ∈ meds, 0 ≤ m.dose) →
      ∃ r, accumulate meds targets hl (seedZero subs) = some r ∧
        ∀ t ∈ targets, ∀ s ∈ subs, ∃ v, getEntry r t s = some v ∧ 0 ≤ v := by
  constructor
  · intro q t h hq hh ht
    exact mul_nonneg hq (Real.rpow_nonneg (by norm_num) _)
  · intro hl meds targets subs hnd hmem hdose
    obtain ⟨r, hacc, hwf, hval⟩ := accumulate_spec hl meds targets subs hnd hmem
    refine ⟨r, hacc, fun t ht s hs => ⟨expectedValue hl meds t s, hval t ht s hs, ?_⟩⟩
    apply List.sum_nonneg
    intro x hx
    obtain ⟨m, hm, rfl⟩ := List.mem_map.mp hx
    exact contrib_nonneg (by exact_mod_cast hdose m (List.mem_of_mem_filter hm))

/-- Witness for C6 at concrete inputs. -/
theorem remaining_dose_and_results_nonneg_witness :
    0 ≤ remaining_dose 5 2 3 ∧
    ∃ r, accumulate [⟨0, 5, "oxycodone"⟩] [2] HALF_LIVES (seedZero seededSubstances) =
        some r ∧
      ∀ t ∈ [(2 : ℚ)], ∀ s ∈ seededSubstances, ∃ v, getEntry r t s = some v ∧ 0 ≤ v :=
  ⟨remaining_dose_and_results_nonneg.1 5 2 3 (by norm_num) (by norm_num) (by norm_num),
   remaining_dose_and_results_nonneg.2 HALF_LIVES [⟨0, 5, "oxycodone"⟩] [2]
     seededSubstances (by decide) (by decide) (by decide)⟩

/-- C7: `linear_reduce` returns exactly
`max(0, current_level - rate_per_hour * elapsed_hours)` and is never
negative, and `bac.py`'s `current_bac` is exactly this operation applied
to the script's BAC, metabolism rate and elapsed hours. -/
theorem linear_reduce_correct :
    (∀ c r t : ℝ,
      Bac.linear_reduce c r t = max 0 (c - r * t) ∧ 0 ≤ Bac.linear_reduce c r t) ∧
    Bac.current_bac =
      Bac.linear_reduce Bac.bac Bac.metabolism_rate_per_hour Bac.time_elapsed_hours :=
  ⟨fun c r t => ⟨rfl, le_max_left 0 _⟩, rfl⟩

/-- C8: zero elapsed time is an identity for the decay operation:
`remaining_dose q 0 h = q`. -/
theorem remaining_dose_zero_elapsed (q h : ℝ) (hq : 0 ≤ q) (hh : 0 < h) :
    remaining_dose q 0 h = q := by
  simp [remaining_dose]

/-- Witness for C8 at a concrete input. -/
theorem remaining_dose_zero_elapsed_witness : remaining_dose 5 0 3.2 = 5 :=
  remaining_dose_zero_elapsed 5 3.2 (by norm_num) (by norm_num)

/-- C9: the accumulation never divides by zero: the instrumented run,
which fails with `zeroDiv` at any `remaining_dose` call whose half-life
divisor is zero, can never return that error; it succeeds exactly when
the plain accumulation does; and an event whose half-life lookup is
`None` or `0` is skipped outright, never reaching the division. -/
theorem accumulation_never_divides_by_zero (hl : List (String × ℚ))
    (meds : List MedEvent) (targets : List ℚ) (seed : Inner) :
    accumulateE meds targets hl seed ≠ Except.error AccErr.zeroDiv ∧
    (∀ r, accumulateE meds targets hl seed = Except.ok r ↔
      accumulate meds targets hl seed = some r) ∧
    (∀ (m : MedEvent) (t : ℚ) (res : Results),
      alistGet hl m.type = none ∨ alistGet hl m.type = some 0 →
      processPair hl m t res = some res) := by
  refine ⟨?_, ?_, ?_⟩
  · rw [accumulateE_eq]
    cases accumulate meds targets hl seed <;> simp
  · intro r
    rw [accumulateE_eq]
    cases accumulate meds targets hl seed <;> simp
  · rintro m t res (h | h)
    · exact processPair_id_of_unknown h
    · exact processPair_id_of_zero h

/-- Witness for C9 at concrete inputs. -/
theorem accumulation_never_divides_by_zero_witness :
    accumulateE medications target_times HALF_LIVES (seedZero seededSubstances) ≠
      Except.error AccErr.zeroDiv ∧
    processPair HALF_LIVES ⟨0, 5, "nosuchdrug"⟩ 1 [] = some [] := by
  obtain ⟨h1, h2, h3⟩ := accumulation_never_divides_by_zero HALF_LIVES medications
    target_times (seedZero seededSubstances)
  exact ⟨h1, h3 ⟨0, 5, "nosuchdrug"⟩ 1 [] (Or.inl rfl)⟩

/-- C10: the accumulation loop only mutates values in place: whenever a
run succeeds, the outer keys of the result are exactly the query
timestamps it was initialised with and every inner key set is exactly
the pre-seeded substance key set. -/
theorem accumulate_preserves_result_keys (hl : List (String × ℚ))
    (meds : List MedEvent) (targets : List ℚ) (seed : Inner) (r : Results)
    (h : accumulate meds targets hl seed = some r) :
    keysOf r = targets ∧ ∀ p ∈ r, keysOf p.2 = keysOf seed := by
  have hwf0 : ∀ p ∈ initResults targets seed, keysOf p.2 = keysOf seed := by
    intro p hp
    simp [initResults] at hp
    obtain ⟨t, ht, rfl⟩ := hp
    rfl
  obtain ⟨hk, hinner⟩ := processMeds_preserves h hwf0
  exact ⟨hk.trans (keysOf_initResults targets seed), hinner⟩

/-- Witness for C10 at a concrete successful run. -/
theorem accumulate_preserves_result_keys_witness :
    keysOf (initResults [2] (seedZero seededSubstances)) = [2] ∧
    ∀ p ∈ initResults [2] (seedZero seededSubstances),
      keysOf p.2 = keysOf (seedZero seededSubstances) :=
  accumulate_preserves_result_keys HALF_LIVES [] [2] (seedZero seededSubstances)
    (initResults [2] (seedZero seededSubstances)) rfl

end DecayEngine
